import Mathlib

/-!
Verification of the fuzzy task-matching core of the repository.

The embedding below translates the string-similarity utility of
src/unnamed/part_001 (functions calculateSimilarity, levenshteinDistance,
and the best-match loop inside registerRoutes) into Lean.  JS strings are
modelled as lists of characters, JS numbers as exact rationals, and the
JS string primitives used by the source (toLowerCase, trim, includes,
split on a whitespace run, charAt) as the corresponding list functions.
-/

/-- Strings are modelled as lists of characters. -/
abbrev Str := List Char

/-- Model of JS toLowerCase, applied character by character. -/
def toLowerStr (s : Str) : Str := s.map Char.toLower

/-- Model of JS trim: drop whitespace from both ends. -/
def trimStr (s : Str) : Str :=
  ((s.dropWhile Char.isWhitespace).reverse.dropWhile Char.isWhitespace).reverse

/-- Normalization used by calculateSimilarity: lowercase then trim. -/
def normalizeStr (s : Str) : Str := trimStr (toLowerStr s)

/-- Helper for includes: does the second list start with the first? -/
def isPrefixList : Str → Str → Bool
  | [], _ => true
  | _ :: _, [] => false
  | c :: cs, d :: ds => c == d && isPrefixList cs ds

/-- Model of JS includes: the second string occurs contiguously in the first. -/
def includes : Str → Str → Bool
  | [], small => isPrefixList small []
  | c :: rest, small => isPrefixList small (c :: rest) || includes rest small

/-- Helper realizing one row step of the levenshteinDistance recurrence:
given the distances from xs (through f), extend to x :: xs. -/
def levAux (x : Char) (xs : Str) (f : Str → Nat) : Str → Nat
  | [] => xs.length + 1
  | y :: ys =>
    if x = y then f ys
    else 1 + min (f ys) (min (levAux x xs f ys) (f (y :: ys)))

/-- The levenshteinDistance function of src/unnamed/part_001.  The source
fills the classic (m+1) x (n+1) dynamic-programming table; this definition
computes the same recurrence (equal heads: diagonal entry; otherwise one
plus the minimum of the diagonal, left and upper entries), expressed as
structural recursion so that it evaluates inside the kernel. -/
def levenshteinDistance : Str → Str → Nat
  | [], b => b.length
  | x :: xs, b => levAux x xs (levenshteinDistance xs) b

/-- Model of the JS split on a run of whitespace as used by the source
(s.split with a one-or-more-whitespace pattern): maximal whitespace runs
separate the pieces, and a run touching either end contributes an empty
piece, exactly as in JS. -/
def splitWs : Str → List Str
  | [] => [[]]
  | c :: rest =>
    if c.isWhitespace then
      match rest with
      | [] => [[], []]
      | d :: _ => if d.isWhitespace then splitWs rest else [] :: splitWs rest
    else
      match splitWs rest with
      | [] => [[c]]
      | w :: ws => (c :: w) :: ws

/-- The per-word matching test of calculateSimilarity: one word contains
the other, or their edit distance is at most 2. -/
def wordMatch (w1 w2 : Str) : Bool :=
  includes w1 w2 || includes w2 w1 || levenshteinDistance w1 w2 ≤ 2

/-- The calculateSimilarity function of src/unnamed/part_001, with JS
numbers modelled as rationals (0.8 = 4/5, 0.7 = 7/10, 0.3 = 3/10). -/
def calculateSimilarity (str1 str2 : Str) : ℚ :=
  let s1 := normalizeStr str1
  let s2 := normalizeStr str2
  if s1 = s2 then 1
  else if includes s1 s2 || includes s2 s1 then 4/5
  else
    let words1 := splitWs s1
    let words2 := splitWs s2
    let matchingWords := words1.countP fun w1 => words2.any fun w2 => wordMatch w1 w2
    let wordSimilarity : ℚ := (matchingWords : ℚ) / (max words1.length words2.length : ℚ)
    let distance := levenshteinDistance s1 s2
    let maxLen := max s1.length s2.length
    let charSimilarity : ℚ := 1 - (distance : ℚ) / (maxLen : ℚ)
    wordSimilarity * (7/10) + charSimilarity * (3/10)

/-- A candidate task: an identifier and a title, the only attributes the
matcher reads. -/
structure Candidate where
  id : Int
  title : Str
  deriving DecidableEq

/-- One iteration of the best-match loop in registerRoutes: the
accumulator holds (bestMatch, bestSimilarity), and a candidate replaces it
when its similarity is above both the current best and the 0.5 threshold.
The source computes calculateSimilarity(task.title, searchTitle), stored
title first. -/
def matchStep (query : Str) (acc : Option Candidate × ℚ) (task : Candidate) :
    Option Candidate × ℚ :=
  let similarity := calculateSimilarity task.title query
  if acc.2 < similarity ∧ (1 : ℚ)/2 < similarity then (some task, similarity) else acc

/-- The fuzzy matcher: the loop of registerRoutes (src/unnamed/part_001)
run over all candidates from the initial state (null, 0), returning the
final bestMatch together with its bestSimilarity when a match was found. -/
def findBestMatch (query : Str) (tasks : List Candidate) : Option (Candidate × ℚ) :=
  match tasks.foldl (matchStep query) (none, 0) with
  | (some t, s) => some (t, s)
  | (none, _) => none

/-- The highest similarity the loop ever compares against, starting from
the initial bestSimilarity of 0. -/
def bestScore (query : Str) (tasks : List Candidate) : ℚ :=
  (tasks.map fun t => calculateSimilarity t.title query).foldl max 0

/-- Conversion from Lean string literals to the character-list model. -/
def strOf (s : String) : Str := s.data

/-- Word-overlap ratio as written in the specification: the fraction of
words of the first word list having an approximate counterpart in the
second, over the larger word count. -/
def specWordOverlap (ws1 ws2 : List Str) : ℚ :=
  ((ws1.countP fun w1 => ws2.any fun w2 => wordMatch w1 w2 : ℕ) : ℚ) /
    ((max ws1.length ws2.length : ℕ) : ℚ)

/-- Character similarity as written in the specification: one minus the
edit distance over the longer length. -/
def specCharSimilarity (a b : Str) : ℚ :=
  1 - (levenshteinDistance a b : ℚ) / ((max a.length b.length : ℕ) : ℚ)

/-- The blended score exactly as claimed by the specification for the
non-exact, non-containment case: the word-overlap ratio counts the words
of the QUERY against the words of the candidate title. -/
def specBlendedScore (query title : Str) : ℚ :=
  7/10 * specWordOverlap (splitWs (normalizeStr query)) (splitWs (normalizeStr title))
  + 3/10 * specCharSimilarity (normalizeStr query) (normalizeStr title)

/-! Edit scripts: insertions, deletions and substitutions

The claim that levenshteinDistance returns the minimum edit count is made
precise through an inductive relation: EStep is one single-character edit
anywhere in the string, and Edits n a b holds when a becomes b after
exactly n such edits. -/

/-- One single-character edit at an arbitrary position: insertion,
deletion, or substitution, each with unit cost. -/
inductive EStep : Str → Str → Prop
  | ins (pre suf : Str) (c : Char) : EStep (pre ++ suf) (pre ++ c :: suf)
  | del (pre suf : Str) (c : Char) : EStep (pre ++ c :: suf) (pre ++ suf)
  | sub (pre suf : Str) (c d : Char) : EStep (pre ++ c :: suf) (pre ++ d :: suf)

/-- Edits n a b: the string a is transformed into b by exactly n
single-character edits. -/
inductive Edits : Nat → Str → Str → Prop
  | refl (a : Str) : Edits 0 a a
  | step {n : Nat} {a b c : Str} : EStep a b → Edits n b c → Edits (n + 1) a c


/-! Basic facts about the embedded primitives -/

theorem lev_nil_left (b : Str) : levenshteinDistance [] b = b.length := rfl

theorem lev_cons_nil (x : Char) (xs : Str) :
    levenshteinDistance (x :: xs) [] = xs.length + 1 := rfl

theorem lev_cons_cons (x y : Char) (xs ys : Str) :
    levenshteinDistance (x :: xs) (y :: ys) =
      if x = y then levenshteinDistance xs ys
      else 1 + min (levenshteinDistance xs ys)
        (min (levenshteinDistance (x :: xs) ys) (levenshteinDistance xs (y :: ys))) := rfl

theorem lev_nil_right (a : Str) : levenshteinDistance a [] = a.length := by
  cases a <;> rfl

theorem lev_self (a : Str) : levenshteinDistance a a = 0 := by
  induction a with
  | nil => rfl
  | cons x xs ih => rw [lev_cons_cons, if_pos rfl, ih]

theorem lev_le_max (a b : Str) : levenshteinDistance a b ≤ max a.length b.length := by
  induction a generalizing b with
  | nil => rw [lev_nil_left]; exact le_max_right _ _
  | cons x xs ih =>
    cases b with
    | nil => rw [lev_nil_right]; exact le_max_left _ _
    | cons y ys =>
      rw [lev_cons_cons]
      have h1 := ih ys
      have h2 := ih (y :: ys)
      by_cases hxy : x = y
      · rw [if_pos hxy]; simp only [List.length_cons] at *; omega
      · rw [if_neg hxy]; simp only [List.length_cons] at *; omega

theorem lev_eq_zero_iff (a b : Str) : levenshteinDistance a b = 0 ↔ a = b := by
  constructor
  · intro h
    induction a generalizing b with
    | nil =>
      rw [lev_nil_left] at h
      exact (List.length_eq_zero.mp h).symm
    | cons x xs ih =>
      cases b with
      | nil => rw [lev_cons_nil] at h; omega
      | cons y ys =>
        rw [lev_cons_cons] at h
        by_cases hxy : x = y
        · rw [if_pos hxy] at h; rw [hxy, ih ys h]
        · rw [if_neg hxy] at h; omega
  · rintro rfl; exact lev_self a

theorem lev_symm (a b : Str) : levenshteinDistance a b = levenshteinDistance b a := by
  induction a generalizing b with
  | nil => rw [lev_nil_left, lev_nil_right]
  | cons x xs ih =>
    induction b with
    | nil => rw [lev_nil_right, lev_nil_left]
    | cons y ys ihb =>
      rw [lev_cons_cons, lev_cons_cons]
      by_cases hxy : x = y
      · rw [if_pos hxy, if_pos hxy.symm, ih ys]
      · rw [if_neg hxy, if_neg (Ne.symm hxy), ih ys, ih (y :: ys), ihb]
        omega

theorem includes_nil (big : Str) : includes big [] = true := by
  cases big <;> simp [includes, isPrefixList]

theorem splitWs_ne_nil (s : Str) : splitWs s ≠ [] := by
  induction s with
  | nil => simp [splitWs]
  | cons c rest ih =>
    by_cases hc : c.isWhitespace
    · cases rest with
      | nil => simp [splitWs, hc]
      | cons d rest2 =>
        by_cases hd : d.isWhitespace
        · simpa [splitWs, hc, hd] using ih
        · simp [splitWs, hc, hd]
    · cases h : splitWs rest with
      | nil => simp [splitWs, hc, h]
      | cons w ws => simp [splitWs, hc, h]

theorem Edits.trans {m n : Nat} {a b c : Str} (h1 : Edits m a b) (h2 : Edits n b c) :
    Edits (m + n) a c := by
  revert h2
  induction h1 with
  | refl => intro h2; simpa using h2
  | step hs _ ih =>
    intro h2
    have h3 := Edits.step hs (ih h2)
    have e : ∀ k : Nat, k + n + 1 = k + 1 + n := by omega
    rw [← e]
    exact h3

theorem estep_cons {a b : Str} (z : Char) (h : EStep a b) : EStep (z :: a) (z :: b) := by
  cases h with
  | ins pre suf c => exact EStep.ins (z :: pre) suf c
  | del pre suf c => exact EStep.del (z :: pre) suf c
  | sub pre suf c d => exact EStep.sub (z :: pre) suf c d

theorem edits_cons {n : Nat} {a b : Str} (z : Char) (h : Edits n a b) :
    Edits n (z :: a) (z :: b) := by
  induction h with
  | refl => exact Edits.refl _
  | step hs _ ih => exact Edits.step (estep_cons z hs) ih

theorem edits_from_nil (b : Str) : Edits b.length [] b := by
  induction b with
  | nil => exact Edits.refl []
  | cons y ys ih => exact Edits.step (EStep.ins [] [] y) (edits_cons y ih)

theorem edits_to_nil (a : Str) : Edits a.length a [] := by
  induction a with
  | nil => exact Edits.refl []
  | cons x xs ih => exact Edits.step (EStep.del [] xs x) ih

/-- An edit script of length levenshteinDistance a b always exists. -/
theorem edits_lev (a b : Str) : Edits (levenshteinDistance a b) a b := by
  induction a generalizing b with
  | nil => rw [lev_nil_left]; exact edits_from_nil b
  | cons x xs ih =>
    induction b with
    | nil => rw [lev_nil_right]; exact edits_to_nil (x :: xs)
    | cons y ys ihb =>
      rw [lev_cons_cons]
      by_cases hxy : x = y
      · rw [if_pos hxy]; subst hxy; exact edits_cons x (ih ys)
      · rw [if_neg hxy]
        rcases min_cases (levenshteinDistance xs ys)
          (min (levenshteinDistance (x :: xs) ys) (levenshteinDistance xs (y :: ys))) with
          ⟨h, _⟩ | ⟨h, _⟩
        · rw [h, Nat.add_comm]
          exact Edits.step (EStep.sub [] xs x y) (edits_cons y (ih ys))
        · rcases min_cases (levenshteinDistance (x :: xs) ys)
            (levenshteinDistance xs (y :: ys)) with ⟨h2, _⟩ | ⟨h2, _⟩
          · rw [h, h2, Nat.add_comm]
            exact Edits.step (EStep.ins [] (x :: xs) y) (edits_cons y ihb)
          · rw [h, h2, Nat.add_comm]
            exact Edits.step (EStep.del [] xs x) (ih (y :: ys))

/-- Joint bound: prepending one character to the first string changes the
distance by at most one, in both directions.  Proved by strong induction
on the total length. -/
theorem lev_head_bounds :
    ∀ (N : Nat) (a x : Str) (ch : Char), a.length + x.length ≤ N →
      levenshteinDistance (ch :: a) x ≤ 1 + levenshteinDistance a x ∧
      levenshteinDistance a x ≤ 1 + levenshteinDistance (ch :: a) x := by
  intro N
  induction N with
  | zero =>
    intro a x ch h
    have ha : a = [] := List.length_eq_zero.mp (by omega)
    have hx : x = [] := List.length_eq_zero.mp (by omega)
    subst ha; subst hx
    constructor <;> simp [lev_nil_right, lev_nil_left]
  | succ N ihN =>
    intro a x ch h
    cases x with
    | nil =>
      rw [lev_nil_right (ch :: a), lev_nil_right a]
      simp only [List.length_cons]
      omega
    | cons y ys =>
      have hlen : ys.length + a.length ≤ N := by
        simp only [List.length_cons] at h; omega
      have hlen2 : a.length + ys.length ≤ N := by omega
      constructor
      · rw [lev_cons_cons]
        by_cases hcy : ch = y
        · rw [if_pos hcy]
          have hb := (ihN ys a y hlen).2
          rw [lev_symm a ys, lev_symm a (y :: ys)]
          exact hb
        · rw [if_neg hcy]
          have hmin : min (levenshteinDistance a ys)
              (min (levenshteinDistance (ch :: a) ys) (levenshteinDistance a (y :: ys))) ≤
              levenshteinDistance a (y :: ys) := by omega
          omega
      · rw [lev_cons_cons]
        by_cases hcy : ch = y
        · rw [if_pos hcy]
          have ha := (ihN ys a y hlen).1
          rw [lev_symm a (y :: ys), lev_symm a ys]
          exact ha
        · rw [if_neg hcy]
          have ha := (ihN ys a y hlen).1
          have ha' : levenshteinDistance a (y :: ys) ≤ 1 + levenshteinDistance a ys := by
            rw [lev_symm a (y :: ys), lev_symm a ys]; exact ha
          have hb' := (ihN a ys ch hlen2).2
          omega

/-- Inserting a character at the head of the first string raises the
distance by at most one. -/
theorem lev_cons_le (a x : Str) (ch : Char) :
    levenshteinDistance (ch :: a) x ≤ 1 + levenshteinDistance a x :=
  (lev_head_bounds (a.length + x.length) a x ch le_rfl).1

/-- Removing a character at the head of the first string raises the
distance by at most one. -/
theorem lev_le_cons (a x : Str) (ch : Char) :
    levenshteinDistance a x ≤ 1 + levenshteinDistance (ch :: a) x :=
  (lev_head_bounds (a.length + x.length) a x ch le_rfl).2

/-- Substituting the head character of the first string raises the
distance by at most one. -/
theorem lev_sub_head (a : Str) (c d : Char) :
    ∀ x, levenshteinDistance (c :: a) x ≤ 1 + levenshteinDistance (d :: a) x := by
  intro x
  induction x with
  | nil => rw [lev_cons_nil, lev_cons_nil]; omega
  | cons y ys ih =>
    rw [lev_cons_cons, lev_cons_cons]
    by_cases hcy : c = y <;> by_cases hdy : d = y
    · rw [if_pos hcy, if_pos hdy]; omega
    · rw [if_pos hcy, if_neg hdy]
      have h1 := lev_le_cons a ys d
      have h2 : levenshteinDistance a ys ≤ 1 + levenshteinDistance a (y :: ys) := by
        rw [lev_symm a ys, lev_symm a (y :: ys)]; exact lev_le_cons ys a y
      omega
    · rw [if_neg hcy, if_pos hdy]; omega
    · rw [if_neg hcy, if_neg hdy]; omega

/-- A uniform additive distance bound is preserved by prepending the same
character to both strings. -/
theorem lev_lift_cons {u v : Str} {k : Nat}
    (h : ∀ x, levenshteinDistance u x ≤ k + levenshteinDistance v x) (z : Char) :
    ∀ x, levenshteinDistance (z :: u) x ≤ k + levenshteinDistance (z :: v) x := by
  intro x
  induction x with
  | nil =>
    rw [lev_cons_nil, lev_cons_nil]
    have h0 := h []
    rw [lev_nil_right, lev_nil_right] at h0
    omega
  | cons y ys ih =>
    rw [lev_cons_cons, lev_cons_cons]
    by_cases hzy : z = y
    · rw [if_pos hzy, if_pos hzy]; exact h ys
    · rw [if_neg hzy, if_neg hzy]
      have h1 := h ys
      have h2 := h (y :: ys)
      omega

/-- A uniform additive distance bound is preserved by prepending the same
prefix to both strings. -/
theorem lev_lift_append {u v : Str} {k : Nat}
    (h : ∀ x, levenshteinDistance u x ≤ k + levenshteinDistance v x) :
    ∀ (pre : Str) (x : Str),
      levenshteinDistance (pre ++ u) x ≤ k + levenshteinDistance (pre ++ v) x := by
  intro pre
  induction pre with
  | nil => exact h
  | cons z pre ih => exact lev_lift_cons ih z

/-- One edit changes the distance to any third string by at most one. -/
theorem estep_lev_le {a b : Str} (h : EStep a b) :
    ∀ x, levenshteinDistance a x ≤ 1 + levenshteinDistance b x := by
  cases h with
  | ins pre suf c => exact lev_lift_append (fun x => lev_le_cons suf x c) pre
  | del pre suf c => exact lev_lift_append (fun x => lev_cons_le suf x c) pre
  | sub pre suf c d => exact lev_lift_append (fun x => lev_sub_head suf c d x) pre

/-- No edit script is shorter than levenshteinDistance. -/
theorem lev_le_of_edits {n : Nat} {a b : Str} (h : Edits n a b) :
    levenshteinDistance a b ≤ n := by
  induction h with
  | refl => simp [lev_self]
  | step hs _ ih =>
    refine le_trans (estep_lev_le hs _) ?_
    omega

/-! Branch lemmas and bounds for calculateSimilarity -/

theorem calcSim_exact {s t : Str} (h : normalizeStr s = normalizeStr t) :
    calculateSimilarity s t = 1 := by
  simp only [calculateSimilarity]
  rw [if_pos h]

theorem calcSim_containment {s t : Str} (hne : normalizeStr s ≠ normalizeStr t)
    (hc : (includes (normalizeStr s) (normalizeStr t) ||
           includes (normalizeStr t) (normalizeStr s)) = true) :
    calculateSimilarity s t = 4/5 := by
  simp only [calculateSimilarity]
  rw [if_neg hne, if_pos hc]

theorem calcSim_blended {s t : Str} (hne : normalizeStr s ≠ normalizeStr t)
    (hc : (includes (normalizeStr s) (normalizeStr t) ||
           includes (normalizeStr t) (normalizeStr s)) = false) :
    calculateSimilarity s t =
      (((splitWs (normalizeStr s)).countP fun w1 =>
          (splitWs (normalizeStr t)).any fun w2 => wordMatch w1 w2 : ℚ) /
        ((max (splitWs (normalizeStr s)).length (splitWs (normalizeStr t)).length : ℕ) : ℚ))
        * (7/10)
      + (1 - (levenshteinDistance (normalizeStr s) (normalizeStr t) : ℚ) /
          ((max (normalizeStr s).length (normalizeStr t).length : ℕ) : ℚ)) * (3/10) := by
  simp only [calculateSimilarity]
  rw [if_neg hne, if_neg (by simp [hc])]
  simp [Nat.cast_max]

/-- In the blended branch, both normalized strings are non-empty: the
empty string is contained in every string, so an empty side would have
been caught by the containment branch. -/
theorem blended_nonempty {s1 s2 : Str} (hc : (includes s1 s2 || includes s2 s1) = false) :
    s1 ≠ [] ∧ s2 ≠ [] := by
  constructor
  · rintro rfl; simp [includes_nil] at hc
  · rintro rfl; simp [includes_nil] at hc

theorem div_cast_le_one {d m : Nat} (h : d ≤ m) : (d : ℚ) / (m : ℚ) ≤ 1 := by
  rcases Nat.eq_zero_or_pos m with hm | hm
  · subst hm; norm_num
  · rw [div_le_one (by exact_mod_cast hm)]; exact_mod_cast h

theorem calcSim_nonneg (s t : Str) : 0 ≤ calculateSimilarity s t := by
  by_cases h1 : normalizeStr s = normalizeStr t
  · rw [calcSim_exact h1]; norm_num
  · by_cases h2 : (includes (normalizeStr s) (normalizeStr t) ||
        includes (normalizeStr t) (normalizeStr s)) = true
    · rw [calcSim_containment h1 h2]; norm_num
    · rw [calcSim_blended h1 (by simpa using h2)]
      have hw : (0 : ℚ) ≤ (((splitWs (normalizeStr s)).countP fun w1 =>
          (splitWs (normalizeStr t)).any fun w2 => wordMatch w1 w2 : ℚ) /
          ((max (splitWs (normalizeStr s)).length (splitWs (normalizeStr t)).length : ℕ) : ℚ)) :=
        div_nonneg (Nat.cast_nonneg _) (Nat.cast_nonneg _)
      have hd : (levenshteinDistance (normalizeStr s) (normalizeStr t) : ℚ) /
          ((max (normalizeStr s).length (normalizeStr t).length : ℕ) : ℚ) ≤ 1 :=
        div_cast_le_one (lev_le_max _ _)
      linarith

theorem calcSim_le_one (s t : Str) : calculateSimilarity s t ≤ 1 := by
  by_cases h1 : normalizeStr s = normalizeStr t
  · rw [calcSim_exact h1]
  · by_cases h2 : (includes (normalizeStr s) (normalizeStr t) ||
        includes (normalizeStr t) (normalizeStr s)) = true
    · rw [calcSim_containment h1 h2]; norm_num
    · rw [calcSim_blended h1 (by simpa using h2)]
      have hw : (((splitWs (normalizeStr s)).countP fun w1 =>
          (splitWs (normalizeStr t)).any fun w2 => wordMatch w1 w2 : ℚ) /
          ((max (splitWs (normalizeStr s)).length (splitWs (normalizeStr t)).length : ℕ) : ℚ)) ≤ 1 :=
        div_cast_le_one (le_trans (List.countP_le_length _) (le_max_left _ _))
      have hc2 : (0 : ℚ) ≤ (levenshteinDistance (normalizeStr s) (normalizeStr t) : ℚ) /
          ((max (normalizeStr s).length (normalizeStr t).length : ℕ) : ℚ) :=
        div_nonneg (Nat.cast_nonneg _) (Nat.cast_nonneg _)
      linarith

/-- The similarity is exactly 1 precisely on normalized-equal inputs: the
containment branch returns 4/5, and in the blended branch the character
similarity is strictly below 1 because the distance is positive. -/
theorem calcSim_eq_one_iff (s t : Str) :
    calculateSimilarity s t = 1 ↔ normalizeStr s = normalizeStr t := by
  constructor
  · intro h
    by_contra h1
    rcases Bool.eq_false_or_eq_true
        (includes (normalizeStr s) (normalizeStr t) ||
         includes (normalizeStr t) (normalizeStr s)) with h2 | h2
    · rw [calcSim_containment h1 h2] at h
      norm_num at h
    · rw [calcSim_blended h1 h2] at h
      have hne := blended_nonempty h2
      have hlpos : 0 < ((max (normalizeStr s).length (normalizeStr t).length : ℕ) : ℚ) := by
        have hp : 0 < (normalizeStr s).length := List.length_pos.mpr hne.1
        have hmax : 0 < max (normalizeStr s).length (normalizeStr t).length := by omega
        exact_mod_cast hmax
      have hdpos : 0 < (levenshteinDistance (normalizeStr s) (normalizeStr t) : ℚ) := by
        have hz : levenshteinDistance (normalizeStr s) (normalizeStr t) ≠ 0 := by
          intro h0; exact h1 ((lev_eq_zero_iff _ _).mp h0)
        have hp : 0 < levenshteinDistance (normalizeStr s) (normalizeStr t) := by omega
        exact_mod_cast hp
      have hfrac : 0 < (levenshteinDistance (normalizeStr s) (normalizeStr t) : ℚ) /
          ((max (normalizeStr s).length (normalizeStr t).length : ℕ) : ℚ) :=
        div_pos hdpos hlpos
      have hw : (((splitWs (normalizeStr s)).countP fun w1 =>
          (splitWs (normalizeStr t)).any fun w2 => wordMatch w1 w2 : ℚ) /
          ((max (splitWs (normalizeStr s)).length (splitWs (normalizeStr t)).length : ℕ) : ℚ)) ≤ 1 :=
        div_cast_le_one (le_trans (List.countP_le_length _) (le_max_left _ _))
      linarith
  · exact calcSim_exact

/-! The best-match loop -/

theorem matchStep_no_update {q : Str} {u : Candidate} {acc : Option Candidate × ℚ}
    (h : calculateSimilarity u.title q ≤ acc.2 ∨ calculateSimilarity u.title q ≤ 1/2) :
    matchStep q acc u = acc := by
  simp only [matchStep]
  rw [if_neg]
  rintro ⟨h1, h2⟩
  rcases h with h | h <;> linarith

theorem matchStep_update {q : Str} {u : Candidate} {acc : Option Candidate × ℚ}
    (h1 : acc.2 < calculateSimilarity u.title q)
    (h2 : 1/2 < calculateSimilarity u.title q) :
    matchStep q acc u = (some u, calculateSimilarity u.title q) := by
  simp only [matchStep]
  rw [if_pos ⟨h1, h2⟩]

theorem le_foldl_max (l : List ℚ) (a : ℚ) : a ≤ l.foldl max a := by
  induction l generalizing a with
  | nil => exact le_rfl
  | cons x xs ih => exact le_trans (le_max_left a x) (ih (max a x))

theorem mem_le_foldl_max {l : List ℚ} {x : ℚ} (a : ℚ) (h : x ∈ l) : x ≤ l.foldl max a := by
  induction l generalizing a with
  | nil => cases h
  | cons y ys ih =>
    rcases List.mem_cons.mp h with rfl | h2
    · exact le_trans (le_max_right a x) (le_foldl_max ys (max a x))
    · exact ih (max a y) h2

theorem foldl_max_le {l : List ℚ} {a c : ℚ} (ha : a ≤ c) (h : ∀ x ∈ l, x ≤ c) :
    l.foldl max a ≤ c := by
  induction l generalizing a with
  | nil => exact ha
  | cons x xs ih =>
    exact ih (max_le ha (h x (List.mem_cons_self x xs)))
      (fun y hy => h y (List.mem_cons_of_mem x hy))

theorem bestScore_nil (q : Str) : bestScore q [] = 0 := rfl

theorem bestScore_append_single (q : Str) (cs : List Candidate) (u : Candidate) :
    bestScore q (cs ++ [u]) = max (bestScore q cs) (calculateSimilarity u.title q) := by
  simp [bestScore, List.map_append, List.foldl_append]

theorem bestScore_nonneg (q : Str) (cs : List Candidate) : 0 ≤ bestScore q cs :=
  le_foldl_max _ 0

theorem bestScore_le_one (q : Str) (cs : List Candidate) : bestScore q cs ≤ 1 := by
  refine foldl_max_le (by norm_num) ?_
  intro x hx
  obtain ⟨t, -, rfl⟩ := List.mem_map.mp hx
  exact calcSim_le_one t.title q

theorem mem_le_bestScore {q : Str} {cs : List Candidate} {t : Candidate} (h : t ∈ cs) :
    calculateSimilarity t.title q ≤ bestScore q cs :=
  mem_le_foldl_max 0 (List.mem_map_of_mem _ h)

/-- Full characterization of the loop state after scanning all
candidates: below the threshold the state is untouched, otherwise it holds
the first candidate attaining the maximal similarity, together with that
similarity. -/
theorem matchLoop_spec (q : Str) (cs : List Candidate) :
    (bestScore q cs ≤ 1/2 → cs.foldl (matchStep q) (none, 0) = (none, 0)) ∧
    (1/2 < bestScore q cs → ∃ pre t post,
      cs = pre ++ t :: post ∧
      calculateSimilarity t.title q = bestScore q cs ∧
      (∀ u ∈ pre, calculateSimilarity u.title q < bestScore q cs) ∧
      cs.foldl (matchStep q) (none, 0) = (some t, bestScore q cs)) := by
  induction cs using List.reverseRecOn with
  | nil =>
    constructor
    · intro _; rfl
    · intro h; rw [bestScore_nil] at h; norm_num at h
  | append_singleton cs u ih =>
    rw [bestScore_append_single, List.foldl_append, List.foldl_cons, List.foldl_nil]
    constructor
    · intro hle
      have hM : bestScore q cs ≤ 1/2 := le_trans (le_max_left _ _) hle
      have hu : calculateSimilarity u.title q ≤ 1/2 := le_trans (le_max_right _ _) hle
      rw [ih.1 hM]
      exact matchStep_no_update (Or.inr hu)
    · intro hlt
      rcases lt_or_le (bestScore q cs) (calculateSimilarity u.title q) with hMs | hsM
      · -- the new candidate strictly improves on everything before it
        have hmax : max (bestScore q cs) (calculateSimilarity u.title q) =
            calculateSimilarity u.title q := max_eq_right hMs.le
        rw [hmax] at hlt ⊢
        refine ⟨cs, u, [], rfl, rfl, ?_, ?_⟩
        · intro v hv
          exact lt_of_le_of_lt (mem_le_bestScore hv) hMs
        · rcases le_or_lt (bestScore q cs) (1/2) with hM12 | h12M
          · rw [ih.1 hM12]
            exact matchStep_update (by simpa using lt_of_le_of_lt (by norm_num) hlt) hlt
          · obtain ⟨pre, t, post, -, -, -, hstate⟩ := ih.2 h12M
            rw [hstate]
            exact matchStep_update hMs hlt
      · -- the old best stays
        have hmax : max (bestScore q cs) (calculateSimilarity u.title q) =
            bestScore q cs := max_eq_left hsM
        rw [hmax] at hlt ⊢
        obtain ⟨pre, t, post, hdec, hsim, hpre, hstate⟩ := ih.2 hlt
        refine ⟨pre, t, post ++ [u], ?_, hsim, hpre, ?_⟩
        · rw [hdec, List.append_assoc, List.cons_append]
        · rw [hstate]
          exact matchStep_no_update (Or.inl hsM)

theorem findBestMatch_none_of_le {q : Str} {cs : List Candidate}
    (h : bestScore q cs ≤ 1/2) : findBestMatch q cs = none := by
  simp only [findBestMatch]
  rw [(matchLoop_spec q cs).1 h]

theorem findBestMatch_some_of_lt {q : Str} {cs : List Candidate}
    (h : 1/2 < bestScore q cs) : ∃ pre t post,
      cs = pre ++ t :: post ∧
      calculateSimilarity t.title q = bestScore q cs ∧
      (∀ u ∈ pre, calculateSimilarity u.title q < bestScore q cs) ∧
      findBestMatch q cs = some (t, bestScore q cs) := by
  obtain ⟨pre, t, post, hdec, hsim, hpre, hstate⟩ := (matchLoop_spec q cs).2 h
  refine ⟨pre, t, post, hdec, hsim, hpre, ?_⟩
  simp only [findBestMatch]
  rw [hstate]

theorem findBestMatch_singleton_some {q : Str} {c : Candidate} {v : ℚ}
    (h : calculateSimilarity c.title q = v) (hv : 1/2 < v) :
    findBestMatch q [c] = some (c, v) := by
  simp only [findBestMatch, List.foldl_cons, List.foldl_nil]
  rw [matchStep_update (by show (0 : ℚ) < _; rw [h]; linarith) (by rw [h]; exact hv), h]

theorem findBestMatch_singleton_none {q : Str} {c : Candidate} {v : ℚ}
    (h : calculateSimilarity c.title q = v) (hv : v ≤ 1/2) :
    findBestMatch q [c] = none := by
  simp only [findBestMatch, List.foldl_cons, List.foldl_nil]
  rw [matchStep_no_update (Or.inr (by rw [h]; exact hv))]

/-- Two decompositions of a list around its first element satisfying P
agree. -/
theorem first_split_unique {α : Type} (P : α → Prop) :
    ∀ (pre : List α) {t : α} {post pre' post' : List α} {t' : α},
      pre ++ t :: post = pre' ++ t' :: post' →
      (∀ u ∈ pre, ¬ P u) → (∀ u ∈ pre', ¬ P u) → P t → P t' →
      pre = pre' ∧ t = t' ∧ post = post' := by
  intro pre
  induction pre with
  | nil =>
    intro t post pre' post' t' heq hpre hpre' hPt hPt'
    cases pre' with
    | nil =>
      simp only [List.nil_append, List.cons.injEq] at heq
      exact ⟨rfl, heq.1, heq.2⟩
    | cons a as =>
      simp only [List.nil_append, List.cons_append, List.cons.injEq] at heq
      exact absurd (heq.1 ▸ hPt) (hpre' a (List.mem_cons_self a as))
  | cons a as ih =>
    intro t post pre' post' t' heq hpre hpre' hPt hPt'
    cases pre' with
    | nil =>
      simp only [List.cons_append, List.nil_append, List.cons.injEq] at heq
      exact absurd (heq.1.symm ▸ hPt') (hpre a (List.mem_cons_self a as))
    | cons b bs =>
      simp only [List.cons_append, List.cons.injEq] at heq
      obtain ⟨rfl, heq2⟩ := heq
      obtain ⟨h1, h2, h3⟩ := ih heq2
        (fun u hu => hpre u (List.mem_cons_of_mem a hu))
        (fun u hu => hpre' u (List.mem_cons_of_mem a hu)) hPt hPt'
      exact ⟨by rw [h1], h2, h3⟩

theorem bestScore_singleton (q : Str) (c : Candidate) :
    bestScore q [c] = max 0 (calculateSimilarity c.title q) :=
  bestScore_append_single q [] c

/-! The claims -/

/-- C1: for every query and candidate list, the matcher scans all
candidates tracking the highest similarity score (bestScore); it returns
the best-scoring candidate together with that score exactly when the best
score is strictly greater than 1/2 (the model of 0.5), and otherwise —
including for the empty candidate list — it returns none. -/
theorem C1_threshold_behavior (q : Str) (cs : List Candidate) :
    (1/2 < bestScore q cs → ∃ t, t ∈ cs ∧
        calculateSimilarity t.title q = bestScore q cs ∧
        findBestMatch q cs = some (t, bestScore q cs)) ∧
    (bestScore q cs ≤ 1/2 → findBestMatch q cs = none) ∧
    findBestMatch q [] = none := by
  refine ⟨?_, fun h => findBestMatch_none_of_le h, rfl⟩
  intro h
  obtain ⟨pre, t, post, hdec, hsim, -, hres⟩ := findBestMatch_some_of_lt h
  exact ⟨t, by rw [hdec]; exact List.mem_append_right pre (List.mem_cons_self t post),
    hsim, hres⟩

/-- Witness for C1 at concrete inputs: an exact match is returned, a far
query is rejected. -/
theorem C1_threshold_behavior_witness :
    findBestMatch (strOf "hi") [⟨1, strOf "hi"⟩] ≠ none ∧
    findBestMatch (strOf "xyz") [⟨1, strOf "abc"⟩] = none := by
  have hsim1 : calculateSimilarity (Candidate.mk 1 (strOf "hi")).title (strOf "hi") = 1 :=
    calcSim_exact (by decide)
  have hbest1 : bestScore (strOf "hi") [⟨1, strOf "hi"⟩] = 1 := by
    rw [bestScore_singleton, hsim1]
    norm_num
  have hsim2 : calculateSimilarity (Candidate.mk 1 (strOf "abc")).title (strOf "xyz") = 0 := by
    rw [calcSim_blended (by decide) (by decide)]
    rw [(by decide : (splitWs (normalizeStr (Candidate.mk 1 (strOf "abc")).title)).countP
      (fun w1 => (splitWs (normalizeStr (strOf "xyz"))).any fun w2 => wordMatch w1 w2) = 0)]
    rw [(by decide : levenshteinDistance (normalizeStr (Candidate.mk 1 (strOf "abc")).title)
      (normalizeStr (strOf "xyz")) = 3)]
    rw [(by decide : max (normalizeStr (Candidate.mk 1 (strOf "abc")).title).length
      (normalizeStr (strOf "xyz")).length = 3)]
    push_cast
    norm_num
  have hbest2 : bestScore (strOf "xyz") [⟨1, strOf "abc"⟩] = 0 := by
    rw [bestScore_singleton, hsim2]
    exact max_self 0
  constructor
  · obtain ⟨t, -, -, hres⟩ := (C1_threshold_behavior (strOf "hi") [⟨1, strOf "hi"⟩]).1
      (by rw [hbest1]; norm_num)
    rw [hres]
    simp
  · exact (C1_threshold_behavior (strOf "xyz") [⟨1, strOf "abc"⟩]).2.1
      (by rw [hbest2]; norm_num)

/-- C2: equal normalized forms give similarity exactly 1, and whenever a
candidate normalizes equal to the query and no earlier candidate does, the
matcher returns that candidate with score 1 regardless of all other
candidates — so the result ignores case and surrounding whitespace
differences between the query and that candidate. -/
theorem C2_exact_match :
    (∀ s t : Str, normalizeStr s = normalizeStr t → calculateSimilarity s t = 1) ∧
    (∀ (q : Str) (pre post : List Candidate) (t : Candidate),
      normalizeStr t.title = normalizeStr q →
      (∀ u ∈ pre, normalizeStr u.title ≠ normalizeStr q) →
      findBestMatch q (pre ++ t :: post) = some (t, 1)) := by
  refine ⟨fun s t h => calcSim_exact h, ?_⟩
  intro q pre post t ht hpre
  have hsim : calculateSimilarity t.title q = 1 := calcSim_exact ht
  have hmem : t ∈ pre ++ t :: post := List.mem_append_right pre (List.mem_cons_self t post)
  have hM : bestScore q (pre ++ t :: post) = 1 :=
    le_antisymm (bestScore_le_one q _) (hsim ▸ mem_le_bestScore hmem)
  have h12 : (1:ℚ)/2 < bestScore q (pre ++ t :: post) := by rw [hM]; norm_num
  obtain ⟨pre', t', post', hdec, hsim', hpre', hres⟩ := findBestMatch_some_of_lt h12
  have hPt' : calculateSimilarity t'.title q = 1 := by rw [hsim', hM]
  have hpre'P : ∀ u ∈ pre', ¬ calculateSimilarity u.title q = 1 := by
    intro u hu
    exact ne_of_lt (lt_of_lt_of_le (hpre' u hu) (le_of_eq hM))
  have hpreP : ∀ u ∈ pre, ¬ calculateSimilarity u.title q = 1 := by
    intro u hu hc
    exact hpre u hu ((calcSim_eq_one_iff _ _).mp hc)
  obtain ⟨-, rfl, -⟩ := first_split_unique (fun v => calculateSimilarity v.title q = 1)
    pre hdec hpreP hpre'P hsim hPt'
  rw [hres, hM]

/-- Witness for C2: a case- and whitespace-different exact match wins with
score 1 ahead of another candidate. -/
theorem C2_exact_match_witness :
    findBestMatch (strOf "  BUY Milk ") [⟨1, strOf "buy milk"⟩, ⟨2, strOf "other"⟩] =
      some (⟨1, strOf "buy milk"⟩, 1) :=
  C2_exact_match.2 (strOf "  BUY Milk ") [] [⟨2, strOf "other"⟩] ⟨1, strOf "buy milk"⟩
    (by decide) (fun u hu => absurd hu (List.not_mem_nil u))

/-- C3: when the normalized strings differ but one contains the other, the
similarity is the fixed value 4/5 (the model of 0.8), and the spec example
matches id 1 with score 4/5. -/
theorem C3_containment_score :
    (∀ s t : Str, normalizeStr s ≠ normalizeStr t →
      (includes (normalizeStr s) (normalizeStr t) ||
       includes (normalizeStr t) (normalizeStr s)) = true →
      calculateSimilarity s t = 4/5) ∧
    findBestMatch (strOf "Buy milk") [⟨1, strOf "Buy milk and eggs"⟩] =
      some (⟨1, strOf "Buy milk and eggs"⟩, 4/5) := by
  refine ⟨fun s t hne hc => calcSim_containment hne hc, ?_⟩
  exact findBestMatch_singleton_some (calcSim_containment (by decide) (by decide))
    (by norm_num)

/-- Witness for C3: the containment pair from the specification example
evaluates to 4/5. -/
theorem C3_containment_score_witness :
    calculateSimilarity (strOf "Buy milk and eggs") (strOf "Buy milk") = 4/5 :=
  C3_containment_score.1 _ _ (by decide) (by decide)

/-- C4 fails as stated: for query "aabb" against stored title "aa bb"
(blended branch), the program returns 47/50, while the formula of the
claim — counting the QUERY's words against the candidate's — gives
59/100.  The loop passes the stored title as the first argument of
calculateSimilarity, and the word count runs over the first argument. -/
theorem C4_counterexample :
    normalizeStr (strOf "aa bb") ≠ normalizeStr (strOf "aabb") ∧
    (includes (normalizeStr (strOf "aa bb")) (normalizeStr (strOf "aabb")) ||
     includes (normalizeStr (strOf "aabb")) (normalizeStr (strOf "aa bb"))) = false ∧
    findBestMatch (strOf "aabb") [⟨1, strOf "aa bb"⟩] = some (⟨1, strOf "aa bb"⟩, 47/50) ∧
    specBlendedScore (strOf "aabb") (strOf "aa bb") = 59/100 ∧
    specBlendedScore (strOf "aabb") (strOf "aa bb") ≠ 47/50 := by
  have hsim : calculateSimilarity (strOf "aa bb") (strOf "aabb") = 47/50 := by
    rw [calcSim_blended (by decide) (by decide)]
    rw [(by decide : (splitWs (normalizeStr (strOf "aa bb"))).countP
      (fun w1 => (splitWs (normalizeStr (strOf "aabb"))).any fun w2 => wordMatch w1 w2) = 2)]
    rw [(by decide : max (splitWs (normalizeStr (strOf "aa bb"))).length
      (splitWs (normalizeStr (strOf "aabb"))).length = 2)]
    rw [(by decide : levenshteinDistance (normalizeStr (strOf "aa bb"))
      (normalizeStr (strOf "aabb")) = 1)]
    rw [(by decide : max (normalizeStr (strOf "aa bb")).length
      (normalizeStr (strOf "aabb")).length = 5)]
    push_cast
    norm_num
  have hspec : specBlendedScore (strOf "aabb") (strOf "aa bb") = 59/100 := by
    simp only [specBlendedScore, specWordOverlap, specCharSimilarity]
    rw [(by decide : (splitWs (normalizeStr (strOf "aabb"))).countP
      (fun w1 => (splitWs (normalizeStr (strOf "aa bb"))).any fun w2 => wordMatch w1 w2) = 1)]
    rw [(by decide : max (splitWs (normalizeStr (strOf "aabb"))).length
      (splitWs (normalizeStr (strOf "aa bb"))).length = 2)]
    rw [(by decide : levenshteinDistance (normalizeStr (strOf "aabb"))
      (normalizeStr (strOf "aa bb")) = 1)]
    rw [(by decide : max (normalizeStr (strOf "aabb")).length
      (normalizeStr (strOf "aa bb")).length = 5)]
    push_cast
    norm_num
  refine ⟨by decide, by decide, ?_, hspec, by rw [hspec]; norm_num⟩
  exact findBestMatch_singleton_some hsim (by norm_num)

/-- C4 corrected: in the blended branch the score is
7/10 · overlap + 3/10 · charSim, where the overlap ratio counts the words
of the FIRST argument of calculateSimilarity — the stored candidate's
title, as passed at the call site — against the query's words. -/
theorem C4_amended_blend (title query : Str)
    (hne : normalizeStr title ≠ normalizeStr query)
    (hc : (includes (normalizeStr title) (normalizeStr query) ||
           includes (normalizeStr query) (normalizeStr title)) = false) :
    calculateSimilarity title query =
      7/10 * specWordOverlap (splitWs (normalizeStr title))
        (splitWs (normalizeStr query))
      + 3/10 * specCharSimilarity (normalizeStr title) (normalizeStr query) := by
  rw [calcSim_blended hne hc]
  simp only [specWordOverlap, specCharSimilarity]
  ring

/-- Witness for the corrected C4 at a concrete blended-branch pair. -/
theorem C4_amended_blend_witness :
    calculateSimilarity (strOf "cat") (strOf "dog") =
      7/10 * specWordOverlap (splitWs (normalizeStr (strOf "cat")))
        (splitWs (normalizeStr (strOf "dog")))
      + 3/10 * specCharSimilarity (normalizeStr (strOf "cat")) (normalizeStr (strOf "dog")) :=
  C4_amended_blend (strOf "cat") (strOf "dog") (by decide) (by decide)

/-- C5 fails as stated: an empty query is contained in every non-empty
normalized title, so each similarity is the containment score 4/5, which
beats the 1/2 threshold — the matcher returns the first candidate, not
none. -/
theorem C5_counterexample :
    normalizeStr [] = ([] : Str) ∧
    calculateSimilarity (strOf "Buy milk") [] = 4/5 ∧
    findBestMatch [] [⟨1, strOf "Buy milk"⟩] = some (⟨1, strOf "Buy milk"⟩, 4/5) ∧
    findBestMatch [] [⟨1, strOf "Buy milk"⟩] ≠ none := by
  have hsim : calculateSimilarity (strOf "Buy milk") [] = 4/5 :=
    calcSim_containment (by decide) (by decide)
  have hres : findBestMatch [] [⟨1, strOf "Buy milk"⟩] = some (⟨1, strOf "Buy milk"⟩, 4/5) :=
    findBestMatch_singleton_some hsim (by norm_num)
  exact ⟨rfl, hsim, hres, by rw [hres]; simp⟩

/-- C5 corrected: for a query normalizing to the empty string and
candidates whose normalized titles are all non-empty, every similarity is
exactly 4/5 through the containment branch, and on a non-empty candidate
list the matcher returns the first candidate with score 4/5 instead of
none. -/
theorem C5_amended_empty_query (q : Str) (cs : List Candidate)
    (hq : normalizeStr q = []) (hne : cs ≠ [])
    (hts : ∀ t ∈ cs, normalizeStr t.title ≠ []) :
    (∀ t ∈ cs, calculateSimilarity t.title q = 4/5) ∧
    findBestMatch q cs = some (cs.head hne, 4/5) := by
  have hsim : ∀ t ∈ cs, calculateSimilarity t.title q = 4/5 := by
    intro t ht
    refine calcSim_containment ?_ ?_
    · rw [hq]; exact hts t ht
    · rw [hq, includes_nil]
      simp
  refine ⟨hsim, ?_⟩
  have hub : bestScore q cs ≤ 4/5 := by
    refine foldl_max_le (by norm_num) ?_
    intro x hx
    obtain ⟨t, ht, rfl⟩ := List.mem_map.mp hx
    rw [hsim t ht]
  have hlb : (4:ℚ)/5 ≤ bestScore q cs := by
    have hmem : cs.head hne ∈ cs := List.head_mem hne
    have hle := mem_le_bestScore (q := q) hmem
    rw [hsim _ hmem] at hle
    exact hle
  have hM : bestScore q cs = 4/5 := le_antisymm hub hlb
  have h12 : (1:ℚ)/2 < bestScore q cs := by rw [hM]; norm_num
  obtain ⟨pre, t, post, hdec, hsim', hpre, hres⟩ := findBestMatch_some_of_lt h12
  have hpre_nil : pre = [] := by
    cases pre with
    | nil => rfl
    | cons a as =>
      have ha : a ∈ cs := by
        rw [hdec]; exact List.mem_append_left _ (List.mem_cons_self a as)
      have hlt := hpre a (List.mem_cons_self a as)
      rw [hsim a ha, hM] at hlt
      exact absurd hlt (lt_irrefl _)
  subst hpre_nil
  have hcs : cs = t :: post := by simpa using hdec
  have hhead : cs.head hne = t := by
    subst hcs
    rfl
  rw [hres, hM, hhead]

/-- Witness for the corrected C5: a whitespace-only query matches the
first of two candidates at 4/5. -/
theorem C5_amended_empty_query_witness :
    findBestMatch (strOf "  ") [⟨1, strOf "Buy milk"⟩, ⟨2, strOf "eggs"⟩] =
      some (⟨1, strOf "Buy milk"⟩, 4/5) :=
  (C5_amended_empty_query (strOf "  ") [⟨1, strOf "Buy milk"⟩, ⟨2, strOf "eggs"⟩]
    (by decide) (by simp) (by decide)).2

/-- C6: similarity scores always lie in the closed interval from 0 to 1;
in particular the Levenshtein distance never exceeds the longer length,
and therefore any score the matcher returns lies in that interval. -/
theorem C6_score_in_unit_interval :
    (∀ a b : Str, levenshteinDistance a b ≤ max a.length b.length) ∧
    (∀ s t : Str, 0 ≤ calculateSimilarity s t ∧ calculateSimilarity s t ≤ 1) ∧
    (∀ (q : Str) (cs : List Candidate) (t : Candidate) (v : ℚ),
      findBestMatch q cs = some (t, v) → 0 ≤ v ∧ v ≤ 1) := by
  refine ⟨lev_le_max, fun s t => ⟨calcSim_nonneg s t, calcSim_le_one s t⟩, ?_⟩
  intro q cs t v hres
  by_cases h : 1/2 < bestScore q cs
  · obtain ⟨pre, t', post, -, -, -, hres'⟩ := findBestMatch_some_of_lt h
    rw [hres'] at hres
    simp only [Option.some.injEq, Prod.mk.injEq] at hres
    obtain ⟨-, rfl⟩ := hres
    exact ⟨bestScore_nonneg q cs, bestScore_le_one q cs⟩
  · rw [findBestMatch_none_of_le (le_of_not_lt h)] at hres
    exact absurd hres (by simp)

/-- Witness for C6: the returned containment score 4/5 is inside the unit
interval. -/
theorem C6_score_in_unit_interval_witness : 0 ≤ (4:ℚ)/5 ∧ (4:ℚ)/5 ≤ 1 :=
  C6_score_in_unit_interval.2.2 (strOf "Buy milk") [⟨1, strOf "Buy milk and eggs"⟩]
    ⟨1, strOf "Buy milk and eggs"⟩ (4/5)
    (findBestMatch_singleton_some (calcSim_containment (by decide) (by decide)) (by norm_num))

/-- C7: levenshteinDistance a b is exactly the minimum number of
single-character insertions, deletions and substitutions transforming a
into b — an edit script of that length exists and none is shorter; the
distance of a string to itself is 0 and the distance between the empty
string and a string of length n is n. -/
theorem C7_lev_minimal_edits (a b : Str) :
    (Edits (levenshteinDistance a b) a b ∧
      ∀ n, Edits n a b → levenshteinDistance a b ≤ n) ∧
    levenshteinDistance a a = 0 ∧
    levenshteinDistance [] b = b.length ∧
    levenshteinDistance b [] = b.length :=
  ⟨⟨edits_lev a b, fun _ h => lev_le_of_edits h⟩, lev_self a, lev_nil_left b, lev_nil_right b⟩

/-- Witness for C7: a concrete one-step deletion script bounds the
distance, which the script of minimal length also realizes. -/
theorem C7_lev_minimal_edits_witness :
    levenshteinDistance ['a', 'b'] ['b'] ≤ 1 ∧
    Edits (levenshteinDistance ['a', 'b'] ['b']) ['a', 'b'] ['b'] :=
  ⟨(C7_lev_minimal_edits ['a', 'b'] ['b']).1.2 1
      (Edits.step (EStep.del [] ['b'] 'a') (Edits.refl ['b'])),
    (C7_lev_minimal_edits ['a', 'b'] ['b']).1.1⟩

/-- C8: the Levenshtein distance function is symmetric. -/
theorem C8_lev_symmetric (a b : Str) :
    levenshteinDistance a b = levenshteinDistance b a :=
  lev_symm a b

/-- C9: the matcher is a deterministic pure function of the query and the
ordered candidate list: its result is fully characterized — a pair is
returned precisely when its score is the tracked maximum, that maximum
beats 1/2, and the candidate is the first in input order attaining it
(every earlier candidate scores strictly lower, so ties go to the first). -/
theorem C9_deterministic_first_tie_break (q : Str) (cs : List Candidate)
    (t : Candidate) (v : ℚ) :
    findBestMatch q cs = some (t, v) ↔
      (1/2 < v ∧ v = bestScore q cs ∧ ∃ pre post,
        cs = pre ++ t :: post ∧
        calculateSimilarity t.title q = v ∧
        ∀ u ∈ pre, calculateSimilarity u.title q < v) := by
  constructor
  · intro hres
    by_cases h : 1/2 < bestScore q cs
    · obtain ⟨pre, t', post, hdec, hsim, hpre, hres'⟩ := findBestMatch_some_of_lt h
      rw [hres'] at hres
      simp only [Option.some.injEq, Prod.mk.injEq] at hres
      obtain ⟨rfl, rfl⟩ := hres
      exact ⟨h, rfl, pre, post, hdec, hsim, hpre⟩
    · rw [findBestMatch_none_of_le (le_of_not_lt h)] at hres
      exact absurd hres (by simp)
  · rintro ⟨hv, rfl, pre, post, hdec, hsim, hpre⟩
    obtain ⟨pre', t', post', hdec', hsim', hpre', hres'⟩ := findBestMatch_some_of_lt hv
    have heq : pre ++ t :: post = pre' ++ t' :: post' := by
      rw [← hdec, ← hdec']
    have hpreP : ∀ u ∈ pre, ¬ calculateSimilarity u.title q = bestScore q cs :=
      fun u hu => ne_of_lt (hpre u hu)
    have hpre'P : ∀ u ∈ pre', ¬ calculateSimilarity u.title q = bestScore q cs :=
      fun u hu => ne_of_lt (hpre' u hu)
    obtain ⟨-, rfl, -⟩ := first_split_unique
      (fun c => calculateSimilarity c.title q = bestScore q cs) pre heq hpreP hpre'P hsim hsim'
    exact hres'

/-- C10: both divisions inside calculateSimilarity are well-defined:
splitting never produces an empty word list, so the word denominator is at
least 1; and the character-similarity division is only reached when both
normalized strings are non-empty (empty versus empty hits the exact
branch, empty versus non-empty hits containment since every string
contains the empty string), so the longer length is at least 1. -/
theorem C10_divisions_well_defined (s t : Str) :
    1 ≤ max (splitWs (normalizeStr s)).length (splitWs (normalizeStr t)).length ∧
    (normalizeStr s ≠ normalizeStr t →
      (includes (normalizeStr s) (normalizeStr t) ||
       includes (normalizeStr t) (normalizeStr s)) = false →
      normalizeStr s ≠ [] ∧ normalizeStr t ≠ [] ∧
      1 ≤ max (normalizeStr s).length (normalizeStr t).length) := by
  constructor
  · have h1 := List.length_pos.mpr (splitWs_ne_nil (normalizeStr s))
    omega
  · intro hne hc
    obtain ⟨h1, h2⟩ := blended_nonempty hc
    have h3 := List.length_pos.mpr h1
    exact ⟨h1, h2, by omega⟩

/-- Witness for C10 at a concrete blended-branch pair. -/
theorem C10_divisions_well_defined_witness :
    normalizeStr (strOf "cat") ≠ [] ∧ normalizeStr (strOf "dog") ≠ [] ∧
    1 ≤ max (normalizeStr (strOf "cat")).length (normalizeStr (strOf "dog")).length :=
  (C10_divisions_well_defined (strOf "cat") (strOf "dog")).2 (by decide) (by decide)
